import Mathlib

/-!
# Verification of the `the-hook` filter registry (src/src/lib.rs)

A shallow embedding of the Rust filter/hook registry:

* `Filter` models `struct Filter { id, priority, callback, type_id }`.
  The Rust `callback` field stores the type-erased closure built in
  `add_filter` from a typed callback `T -> T`; here we store the captured
  typed callback (`typed_callback`) and derive the erased closure
  (`Filter.callback`) exactly as the source wraps it (downcast, apply,
  re-box).
* The registry `FILTERS : HashMap<String, Vec<Filter>>` is modelled as an
  association list `Registry` with at most one binding per key reachable
  from the empty map; `getHook`, `setHook`, `updateHook`, `eraseHook`
  model `get`, `get_mut` assignment, `entry(..).or_insert_with(Vec::new)`
  followed by mutation, and `remove`.
* The id counter `FILTER_ID_COUNTER : AtomicU64` starting at 1 is a `Nat`
  kept below `2^64`; `fetch_add(1, SeqCst)` returns the old value and
  stores `(old + 1) % 2^64` (Rust atomic arithmetic wraps on overflow).
* Rust types are modelled by a universe `Tag` of type codes (`TypeId`)
  with decidable equality and an interpretation `El : Tag → Type`; a
  `Box<dyn Any>` value is a dependent pair `DynVal El`.
* Panics (`panic!("Type mismatch for filter hook ...")` and the two
  `expect` calls) are modelled by `Except DispatchError`.
* `Vec::sort_by_key` is a stable sort by key (documented behaviour of
  `slice::sort_by_key`); it is modelled by the stable insertion sort
  `sortByPriority` (left fold of insert-after-equals), which agrees with
  every stable sort by priority.
-/

set_option linter.unusedSectionVars false

namespace TheHook

section Model

variable {Tag : Type} [DecidableEq Tag] {El : Tag → Type}

/-- A type-erased runtime value: `Box<dyn Any>` holding a value of some
type together with its `TypeId`. -/
def DynVal (El : Tag → Type) : Type := (t : Tag) × El t

/-- Models `Box<dyn Any>::downcast::<T>()`: succeeds exactly when the stored
type id equals `t`. -/
def downcast (El : Tag → Type) [DecidableEq Tag] (t : Tag) (v : DynVal El) :
    Option (El t) :=
  if h : v.1 = t then some (h ▸ v.2) else none

/-- The ways `apply_filters` can panic. -/
inductive DispatchError where
  /-- Models the dispatch-loop abort with the type mismatch message naming the hook. -/
  | typeMismatch (hook : String)
  /-- Models the expect call (Type mismatch in filter) inside a wrapped callback. -/
  | filterDowncast
  /-- Models the expect call (Type mismatch in final value) on the final downcast. -/
  | finalDowncast
  deriving DecidableEq

/-- Models `struct Filter`: id, priority, declared type id, and the typed
callback captured by the erased closure. -/
structure Filter (Tag : Type) (El : Tag → Type) where
  id : Nat
  priority : Int
  type_id : Tag
  typed_callback : El type_id → El type_id

/-- The erased closure stored in the Rust `callback` field:
`move |value| { let value = *value.downcast::<T>().expect(..); Box::new(callback(value)) }`. -/
def Filter.callback (f : Filter Tag El) (v : DynVal El) :
    Except DispatchError (DynVal El) :=
  match downcast El f.type_id v with
  | some x => .ok ⟨f.type_id, f.typed_callback x⟩
  | none => .error .filterDowncast

/-- The registry map `HashMap<String, Vec<Filter>>`, as an association
list (reachable states bind each key at most once). -/
def Registry (Tag : Type) (El : Tag → Type) : Type :=
  List (String × List (Filter Tag El))

/-- Models `FILTERS.get(hook)`. -/
def getHook (r : Registry Tag El) (hook : String) :
    Option (List (Filter Tag El)) :=
  match r with
  | [] => none
  | (k, l) :: rest => if k = hook then some l else getHook rest hook

/-- Overwrite the list bound to `hook` when present (the effect of
mutating through `get_mut`); no-op when absent. -/
def setHook (r : Registry Tag El) (hook : String) (l : List (Filter Tag El)) :
    Registry Tag El :=
  match r with
  | [] => []
  | (k, v) :: rest =>
    if k = hook then (k, l) :: rest else (k, v) :: setHook rest hook l

/-- Models `FILTERS.entry(hook).or_insert_with(Vec::new)` followed by an in-place
update of the entry's vector. -/
def updateHook (r : Registry Tag El) (hook : String)
    (f : List (Filter Tag El) → List (Filter Tag El)) : Registry Tag El :=
  match r with
  | [] => [(hook, f [])]
  | (k, l) :: rest =>
    if k = hook then (k, f l) :: rest else (k, l) :: updateHook rest hook f

/-- Models `FILTERS.remove(hook)`: drop the binding for `hook`. -/
def eraseHook (r : Registry Tag El) (hook : String) : Registry Tag El :=
  match r with
  | [] => []
  | (k, v) :: rest =>
    if k = hook then eraseHook rest hook else (k, v) :: eraseHook rest hook

/-- Insert `f` into a list, after every entry whose priority is `≤ f`'s
and before the first entry whose priority exceeds `f`'s. -/
def insertByPriority (f : Filter Tag El) :
    List (Filter Tag El) → List (Filter Tag El)
  | [] => [f]
  | g :: l =>
    if g.priority ≤ f.priority then g :: insertByPriority f l else f :: g :: l

/-- Models `entry.sort_by_key(|f| f.priority)`: a stable sort by priority,
realised as the left fold of stable insertion. -/
def sortByPriority (l : List (Filter Tag El)) : List (Filter Tag El) :=
  l.foldl (fun acc g => insertByPriority g acc) []

/-- The whole mutable state of the library: the `FILTERS` map and the
`FILTER_ID_COUNTER` atomic (a `u64`, kept `< 2^64`). -/
structure HookState (Tag : Type) (El : Tag → Type) where
  FILTERS : Registry Tag El
  FILTER_ID_COUNTER : Nat

/-- The state at process start: empty map, counter at 1
(`AtomicU64::new(1)`). -/
def initState : HookState Tag El := ⟨[], 1⟩

/-- Models `add_filter::<T>(hook, priority, callback)`: allocate an id with
`fetch_add(1, SeqCst)` (returns the old value, wrapping on overflow),
build the filter entry, push it onto the hook's vector (created empty if
absent) and stably re-sort by priority. Returns the id; never fails. -/
def add_filter (st : HookState Tag El) (hook : String) (priority : Int)
    (t : Tag) (callback : El t → El t) : Nat × HookState Tag El :=
  let id := st.FILTER_ID_COUNTER
  let f : Filter Tag El := ⟨id, priority, t, callback⟩
  (id,
   { FILTERS := updateHook st.FILTERS hook (fun l => sortByPriority (l ++ [f])),
     FILTER_ID_COUNTER := (st.FILTER_ID_COUNTER + 1) % 2 ^ 64 })

/-- The dispatch loop of `apply_filters`: for each filter in sequence
order, check its `type_id` against `T` (panicking on mismatch), then
thread the boxed value through its erased callback. -/
def runFilters (hook : String) (t : Tag) :
    List (Filter Tag El) → DynVal El → Except DispatchError (DynVal El)
  | [], acc => .ok acc
  | f :: rest, acc =>
    if f.type_id = t then
      match f.callback acc with
      | .ok acc2 => runFilters hook t rest acc2
      | .error e => .error e
    else .error (.typeMismatch hook)

/-- Models `apply_filters::<T>(hook, value)`: identity when the hook is absent;
otherwise run the dispatch loop and downcast the final boxed value back
to `T`. -/
def apply_filters (st : HookState Tag El) (hook : String) (t : Tag)
    (v : El t) : Except DispatchError (El t) :=
  match getHook st.FILTERS hook with
  | none => .ok v
  | some l =>
    match runFilters hook t l ⟨t, v⟩ with
    | .error e => .error e
    | .ok r =>
      match downcast El t r with
      | some x => .ok x
      | none => .error .finalDowncast

/-- Models `remove_filter(hook, id)`: if the hook exists, retain the entries
whose id differs and report whether the length changed; otherwise false. -/
def remove_filter (st : HookState Tag El) (hook : String) (id : Nat) :
    Bool × HookState Tag El :=
  match getHook st.FILTERS hook with
  | none => (false, st)
  | some l =>
    let l2 := l.filter (fun f => f.id ≠ id)
    (decide (l2.length ≠ l.length),
     { st with FILTERS := setHook st.FILTERS hook l2 })

/-- Models `remove_all_filters(hook)`: delete the hook key from the map. -/
def remove_all_filters (st : HookState Tag El) (hook : String) :
    HookState Tag El :=
  { st with FILTERS := eraseHook st.FILTERS hook }

/-- The ordering the registry maintains: ascending priority. -/
def PrioLE (f g : Filter Tag El) : Prop := f.priority ≤ g.priority

/-- The typed fold that `apply_filters` computes when every filter in the
sequence declares type `t`: thread the value through each typed callback
in sequence order (the output of filter `i` is the input of filter
`i+1`). -/
def foldTyped (t : Tag) : List (Filter Tag El) → El t → El t
  | [], v => v
  | f :: rest, v =>
    if h : f.type_id = t then
      foldTyped t rest (h ▸ f.typed_callback (h.symm ▸ v))
    else v

/-- States reachable from `initState` by the public API, indexed by the
number of `add_filter` calls performed so far. -/
inductive ReachableN : Nat → HookState Tag El → Prop where
  | init : ReachableN 0 initState
  | add {n : Nat} {st : HookState Tag El} (hook : String) (priority : Int)
      (t : Tag) (cb : El t → El t) (h : ReachableN n st) :
      ReachableN (n + 1) (add_filter st hook priority t cb).2
  | remove {n : Nat} {st : HookState Tag El} (hook : String) (id : Nat)
      (h : ReachableN n st) : ReachableN n (remove_filter st hook id).2
  | removeAll {n : Nat} {st : HookState Tag El} (hook : String)
      (h : ReachableN n st) : ReachableN n (remove_all_filters st hook)

end Model

section ConcreteTypes

/-- A small concrete universe of Rust value types, for concrete
scenarios: integers and strings. -/
inductive Ty where
  | int
  | str
  deriving DecidableEq

/-- Interpretation of the concrete type codes. -/
@[reducible] def ElTy : Ty → Type
  | .int => Int
  | .str => String

/-- Iterate `add_filter` `n` times with fixed arguments (hook "h",
priority 0, identity callback on integers) starting from a state. -/
def addIter : Nat → HookState Ty ElTy → HookState Ty ElTy
  | 0, st => st
  | n + 1, st => (add_filter (addIter n st) "h" 0 Ty.int (fun v => v)).2

end ConcreteTypes

section SortLemmas

variable {Tag : Type} [DecidableEq Tag] {El : Tag → Type}

theorem mem_insertByPriority {f x : Filter Tag El} {l : List (Filter Tag El)} :
    x ∈ insertByPriority f l ↔ x = f ∨ x ∈ l := by
  induction l with
  | nil => simp [insertByPriority]
  | cons g l ih =>
    by_cases h : g.priority ≤ f.priority
    · rw [insertByPriority, if_pos h]
      simp only [List.mem_cons, ih]
      tauto
    · rw [insertByPriority, if_neg h]
      simp only [List.mem_cons]

theorem pairwise_insertByPriority {f : Filter Tag El} {l : List (Filter Tag El)}
    (hl : l.Pairwise PrioLE) : (insertByPriority f l).Pairwise PrioLE := by
  induction l with
  | nil => simp [insertByPriority]
  | cons g l ih =>
    rcases List.pairwise_cons.mp hl with ⟨hg, hl2⟩
    by_cases h : g.priority ≤ f.priority
    · rw [insertByPriority, if_pos h]
      refine List.pairwise_cons.mpr ⟨?_, ih hl2⟩
      intro x hx
      rcases mem_insertByPriority.mp hx with rfl | hx
      · exact h
      · exact hg x hx
    · rw [insertByPriority, if_neg h]
      refine List.pairwise_cons.mpr ⟨?_, hl⟩
      intro x hx
      rcases List.mem_cons.mp hx with rfl | hx
      · exact le_of_lt (lt_of_not_le h)
      · exact le_trans (le_of_lt (lt_of_not_le h)) (hg x hx)

theorem pairwise_foldl_insert (l acc : List (Filter Tag El))
    (hacc : acc.Pairwise PrioLE) :
    (l.foldl (fun acc g => insertByPriority g acc) acc).Pairwise PrioLE := by
  induction l generalizing acc with
  | nil => exact hacc
  | cons g l ih => exact ih _ (pairwise_insertByPriority hacc)

theorem sorted_sortByPriority (l : List (Filter Tag El)) :
    (sortByPriority l).Pairwise PrioLE :=
  pairwise_foldl_insert l [] List.Pairwise.nil

theorem insertByPriority_eq_append {f : Filter Tag El}
    {l : List (Filter Tag El)} (h : ∀ g ∈ l, g.priority ≤ f.priority) :
    insertByPriority f l = l ++ [f] := by
  induction l with
  | nil => rfl
  | cons g l ih =>
    rw [insertByPriority, if_pos (h g (List.mem_cons_self g l))]
    rw [ih fun x hx => h x (List.mem_cons_of_mem g hx)]
    rfl

theorem foldl_insert_of_sorted (l acc : List (Filter Tag El))
    (h : (acc ++ l).Pairwise PrioLE) :
    l.foldl (fun acc g => insertByPriority g acc) acc = acc ++ l := by
  induction l generalizing acc with
  | nil => simp
  | cons g l ih =>
    have hg : ∀ x ∈ acc, x.priority ≤ g.priority := by
      intro x hx
      exact (List.pairwise_append.mp h).2.2 x hx g (List.mem_cons_self g l)
    rw [List.foldl_cons, insertByPriority_eq_append hg,
      ih (acc ++ [g]) (by simpa using h)]
    simp

theorem sortByPriority_of_sorted {l : List (Filter Tag El)}
    (h : l.Pairwise PrioLE) : sortByPriority l = l :=
  foldl_insert_of_sorted l [] (by simpa using h)

theorem sortByPriority_append_singleton (l : List (Filter Tag El))
    (f : Filter Tag El) :
    sortByPriority (l ++ [f]) = insertByPriority f (sortByPriority l) := by
  unfold sortByPriority
  rw [List.foldl_append]
  rfl

theorem insertByPriority_eq_takeWhile_dropWhile (f : Filter Tag El)
    (l : List (Filter Tag El)) :
    insertByPriority f l =
      l.takeWhile (fun g => decide (g.priority ≤ f.priority)) ++
        f :: l.dropWhile (fun g => decide (g.priority ≤ f.priority)) := by
  induction l with
  | nil => rfl
  | cons g l ih =>
    by_cases h : g.priority ≤ f.priority
    · rw [insertByPriority, if_pos h]
      simp [List.takeWhile_cons, List.dropWhile_cons, h, ih]
    · rw [insertByPriority, if_neg h]
      simp [List.takeWhile_cons, List.dropWhile_cons, h]

theorem mem_takeWhile_of_sorted {l : List (Filter Tag El)} {p : Int}
    (hs : l.Pairwise PrioLE) {g : Filter Tag El} (hg : g ∈ l)
    (hle : g.priority ≤ p) :
    g ∈ l.takeWhile (fun x => decide (x.priority ≤ p)) := by
  induction l with
  | nil => cases hg
  | cons a l ih =>
    rcases List.pairwise_cons.mp hs with ⟨ha, hl⟩
    rcases List.mem_cons.mp hg with rfl | hg2
    · simp [List.takeWhile_cons, hle]
    · have hap : a.priority ≤ p := le_trans (ha g hg2) hle
      rw [List.takeWhile_cons, if_pos (decide_eq_true hap)]
      exact List.mem_cons_of_mem a (ih hl hg2)

end SortLemmas

section RegistryLemmas

variable {Tag : Type} [DecidableEq Tag] {El : Tag → Type}

theorem getHook_updateHook_self (r : Registry Tag El) (hook : String)
    (f : List (Filter Tag El) → List (Filter Tag El)) :
    getHook (updateHook r hook f) hook = some (f ((getHook r hook).getD [])) := by
  induction r with
  | nil => simp [updateHook, getHook]
  | cons kv rest ih =>
    obtain ⟨k, l⟩ := kv
    by_cases h : k = hook <;> simp [updateHook, getHook, h, ih]

theorem getHook_updateHook_ne (r : Registry Tag El) (hook hook' : String)
    (f : List (Filter Tag El) → List (Filter Tag El)) (h : hook' ≠ hook) :
    getHook (updateHook r hook f) hook' = getHook r hook' := by
  induction r with
  | nil => simp [updateHook, getHook, Ne.symm h]
  | cons kv rest ih =>
    obtain ⟨k, l⟩ := kv
    by_cases hk : k = hook
    · subst hk
      simp [updateHook, getHook, Ne.symm h]
    · simp [updateHook, getHook, hk, ih]

theorem getHook_setHook_self (r : Registry Tag El) (hook : String)
    (l l₀ : List (Filter Tag El)) (h : getHook r hook = some l₀) :
    getHook (setHook r hook l) hook = some l := by
  induction r with
  | nil => simp [getHook] at h
  | cons kv rest ih =>
    obtain ⟨k, v⟩ := kv
    by_cases hk : k = hook
    · simp [setHook, getHook, hk]
    · rw [getHook, if_neg hk] at h
      simp [setHook, getHook, hk, ih h]

theorem getHook_setHook_ne (r : Registry Tag El) (hook hook' : String)
    (l : List (Filter Tag El)) (h : hook' ≠ hook) :
    getHook (setHook r hook l) hook' = getHook r hook' := by
  induction r with
  | nil => simp [setHook]
  | cons kv rest ih =>
    obtain ⟨k, v⟩ := kv
    by_cases hk : k = hook
    · subst hk
      simp [setHook, getHook, Ne.symm h]
    · simp [setHook, getHook, hk, ih]

theorem getHook_eraseHook_self (r : Registry Tag El) (hook : String) :
    getHook (eraseHook r hook) hook = none := by
  induction r with
  | nil => rfl
  | cons kv rest ih =>
    obtain ⟨k, v⟩ := kv
    by_cases hk : k = hook
    · simpa [eraseHook, hk] using ih
    · simpa [eraseHook, getHook, hk] using ih

theorem getHook_eraseHook_ne (r : Registry Tag El) (hook hook' : String)
    (h : hook' ≠ hook) :
    getHook (eraseHook r hook) hook' = getHook r hook' := by
  induction r with
  | nil => rfl
  | cons kv rest ih =>
    obtain ⟨k, v⟩ := kv
    by_cases hk : k = hook
    · subst hk
      simp [eraseHook, getHook, Ne.symm h, ih]
    · simp [eraseHook, getHook, hk, ih]

theorem eraseHook_idem (r : Registry Tag El) (hook : String) :
    eraseHook (eraseHook r hook) hook = eraseHook r hook := by
  induction r with
  | nil => rfl
  | cons kv rest ih =>
    obtain ⟨k, v⟩ := kv
    by_cases hk : k = hook
    · simp [eraseHook, hk, ih]
    · simp [eraseHook, hk, ih]

end RegistryLemmas

section StateLemmas

variable {Tag : Type} [DecidableEq Tag] {El : Tag → Type}

/-- The id returned by `add_filter` is the counter value read by
`fetch_add`. -/
theorem add_filter_fst (st : HookState Tag El) (hook : String) (p : Int)
    (t : Tag) (cb : El t → El t) :
    (add_filter st hook p t cb).1 = st.FILTER_ID_COUNTER := rfl

theorem remove_filter_counter (st : HookState Tag El) (hook : String)
    (id : Nat) :
    (remove_filter st hook id).2.FILTER_ID_COUNTER = st.FILTER_ID_COUNTER := by
  rcases h : getHook st.FILTERS hook with _ | l <;> simp [remove_filter, h]

/-- Invariant: in every reachable state, every hook's filter sequence is
sorted ascending by priority. -/
theorem reachable_sorted {n : Nat} {st : HookState Tag El}
    (hr : ReachableN n st) :
    ∀ hook l, getHook st.FILTERS hook = some l → l.Pairwise PrioLE := by
  induction hr with
  | init =>
    intro hook l h
    simp [initState, getHook] at h
  | @add n st hook₀ p t cb h ih =>
    intro hook l hl
    simp only [add_filter] at hl
    by_cases he : hook = hook₀
    · subst he
      rw [getHook_updateHook_self] at hl
      cases hl
      exact sorted_sortByPriority _
    · rw [getHook_updateHook_ne _ _ _ _ he] at hl
      exact ih hook l hl
  | @remove n st hook₀ id h ih =>
    intro hook l hl
    rcases hg : getHook st.FILTERS hook₀ with _ | l₀
    · exact ih hook l (by simpa [remove_filter, hg] using hl)
    · simp only [remove_filter, hg] at hl
      by_cases he : hook = hook₀
      · subst he
        rw [getHook_setHook_self _ _ _ l₀ hg] at hl
        cases hl
        exact List.Pairwise.sublist (List.filter_sublist l₀) (ih _ _ hg)
      · rw [getHook_setHook_ne _ _ _ _ he] at hl
        exact ih hook l hl
  | @removeAll n st hook₀ h ih =>
    intro hook l hl
    simp only [remove_all_filters] at hl
    by_cases he : hook = hook₀
    · subst he
      rw [getHook_eraseHook_self] at hl
      cases hl
    · rw [getHook_eraseHook_ne _ _ _ he] at hl
      exact ih hook l hl

/-- Invariant: after `n` registrations, the id counter holds
`(1 + n) % 2^64` (it starts at 1 and each `fetch_add` wraps at `2^64`). -/
theorem reachable_counter {n : Nat} {st : HookState Tag El}
    (hr : ReachableN n st) :
    st.FILTER_ID_COUNTER = (1 + n) % 2 ^ 64 := by
  induction hr with
  | init => norm_num [initState]
  | @add n st hook p t cb h ih =>
    simp only [add_filter]
    rw [ih, Nat.mod_add_mod]
    omega
  | @remove n st hook id h ih =>
    rw [remove_filter_counter]
    exact ih
  | @removeAll n st hook h ih =>
    simpa [remove_all_filters] using ih

end StateLemmas

section DispatchLemmas

variable {Tag : Type} [DecidableEq Tag] {El : Tag → Type}

theorem downcast_mk (t : Tag) (v : El t) : downcast El t ⟨t, v⟩ = some v := by
  unfold downcast
  rw [dif_pos rfl]

theorem downcast_mk_ne {t t' : Tag} (h : t' ≠ t) (v : El t') :
    downcast El t ⟨t', v⟩ = none := by
  unfold downcast
  rw [dif_neg h]

theorem callback_mk (f : Filter Tag El) (v : El f.type_id) :
    f.callback ⟨f.type_id, v⟩ = .ok ⟨f.type_id, f.typed_callback v⟩ := by
  rw [Filter.callback, downcast_mk]

theorem runFilters_eq_foldTyped (hook : String) (t : Tag)
    (l : List (Filter Tag El)) (hall : ∀ f ∈ l, f.type_id = t) (v : El t) :
    runFilters hook t l ⟨t, v⟩ = .ok ⟨t, foldTyped t l v⟩ := by
  induction l generalizing v with
  | nil => rfl
  | cons f rest ih =>
    have hf : f.type_id = t := hall f (List.mem_cons_self f rest)
    subst hf
    simp only [runFilters, if_pos rfl, callback_mk, foldTyped, dif_pos rfl]
    exact ih (fun g hg => hall g (List.mem_cons_of_mem f hg))
      (f.typed_callback v)

theorem runFilters_error_of_mismatch (hook : String) (t : Tag)
    (l : List (Filter Tag El)) (hex : ∃ f ∈ l, f.type_id ≠ t) (v : El t) :
    runFilters hook t l ⟨t, v⟩ = .error (.typeMismatch hook) := by
  induction l generalizing v with
  | nil =>
    rcases hex with ⟨f, hf, _⟩
    cases hf
  | cons f rest ih =>
    by_cases hf : f.type_id = t
    · have hex2 : ∃ g ∈ rest, g.type_id ≠ t := by
        rcases hex with ⟨g, hg, hgne⟩
        rcases List.mem_cons.mp hg with rfl | hg2
        · exact absurd hf hgne
        · exact ⟨g, hg2, hgne⟩
      subst hf
      simp only [runFilters, if_pos rfl, callback_mk]
      exact ih hex2 (f.typed_callback v)
    · simp only [runFilters, if_neg hf]

/-- Folding through a prefix of matching filters: the dispatch loop first
applies every filter of `l₁` to the value, then continues with `rest` on
the accumulated result. -/
theorem runFilters_append_of_all_match (hook : String) (t : Tag)
    (l₁ rest : List (Filter Tag El)) (hall : ∀ f ∈ l₁, f.type_id = t)
    (v : El t) :
    runFilters hook t (l₁ ++ rest) ⟨t, v⟩ =
      runFilters hook t rest ⟨t, foldTyped t l₁ v⟩ := by
  induction l₁ generalizing v with
  | nil => rfl
  | cons f l₁ ih =>
    have hf : f.type_id = t := hall f (List.mem_cons_self f l₁)
    subst hf
    simp only [List.cons_append, runFilters, if_pos rfl, callback_mk,
      foldTyped, dif_pos rfl]
    exact ih (fun g hg => hall g (List.mem_cons_of_mem f hg))
      (f.typed_callback v)

theorem apply_filters_eq_foldTyped (st : HookState Tag El) (hook : String)
    (t : Tag) (v : El t) (l : List (Filter Tag El))
    (hl : getHook st.FILTERS hook = some l) (hall : ∀ f ∈ l, f.type_id = t) :
    apply_filters st hook t v = .ok (foldTyped t l v) := by
  simp only [apply_filters, hl, runFilters_eq_foldTyped hook t l hall v,
    downcast_mk]

/-- Dispatch on an absent hook, or on a hook bound to the empty sequence,
returns the value unchanged. -/
theorem apply_filters_identity (st : HookState Tag El) (hook : String)
    (t : Tag) (v : El t)
    (h : getHook st.FILTERS hook = none ∨ getHook st.FILTERS hook = some []) :
    apply_filters st hook t v = .ok v := by
  rcases h with h | h
  · simp [apply_filters, h]
  · simp [apply_filters, h, runFilters, downcast_mk]

/-- In a list whose mapped ids are nodup, removing the entries carrying
one given id removes at most one entry. -/
theorem length_le_filter_ne_succ (id : Nat) (l : List (Filter Tag El))
    (hnd : (l.map Filter.id).Nodup) :
    l.length ≤ (l.filter (fun f => f.id ≠ id)).length + 1 := by
  induction l with
  | nil => simp
  | cons a l ih =>
    rw [List.map_cons, List.nodup_cons] at hnd
    obtain ⟨hnotin, hnd2⟩ := hnd
    by_cases ha : a.id = id
    · have hmem : ∀ g ∈ l, g.id ≠ id := by
        intro g hg hgid
        apply hnotin
        rw [ha, ← hgid]
        exact List.mem_map_of_mem Filter.id hg
      have hfe : l.filter (fun f => decide (f.id ≠ id)) = l :=
        List.filter_eq_self.mpr fun g hg => by simpa using hmem g hg
      simp only [List.filter_cons, ha]
      simp only [List.length_cons]
      rw [show (decide ¬id = id) = false by simp]
      simp only [Bool.false_eq_true, if_false]
      rw [hfe]
    · simp only [List.filter_cons]
      rw [show (decide ¬a.id = id) = true by simpa using ha]
      simp only [if_true, List.length_cons]
      have := ih hnd2
      omega

end DispatchLemmas

section RemovalLemmas

variable {Tag : Type} [DecidableEq Tag] {El : Tag → Type}

/-- The boolean returned by `remove_filter` when the hook holds `l`:
the retained list is shorter iff some entry carried the id. -/
theorem filter_length_ne_iff_exists (id : Nat) (l : List (Filter Tag El)) :
    ((l.filter (fun f => f.id ≠ id)).length ≠ l.length ↔
      ∃ f ∈ l, f.id = id) := by
  induction l with
  | nil => simp
  | cons a l ih =>
    by_cases ha : a.id = id
    · simp only [List.filter_cons]
      rw [show (decide (a.id ≠ id)) = false by simp [ha]]
      simp only [Bool.false_eq_true, if_false, List.length_cons]
      have hle := List.length_filter_le (fun f => decide (f.id ≠ id)) l
      constructor
      · intro _
        exact ⟨a, List.mem_cons_self a l, ha⟩
      · intro _
        omega
    · simp only [List.filter_cons]
      rw [show (decide (a.id ≠ id)) = true by simpa using ha]
      simp only [if_true, List.length_cons]
      constructor
      · intro h
        rcases ih.mp (fun he => h (by rw [he])) with ⟨f, hf, hfid⟩
        exact ⟨f, List.mem_cons_of_mem a hf, hfid⟩
      · rintro ⟨f, hf, hfid⟩
        rcases List.mem_cons.mp hf with rfl | hf2
        · exact absurd hfid ha
        · have := ih.mpr ⟨f, hf2, hfid⟩
          omega

end RemovalLemmas

section PermLemmas

variable {Tag : Type} [DecidableEq Tag] {El : Tag → Type}

theorem insertByPriority_perm (f : Filter Tag El)
    (l : List (Filter Tag El)) : List.Perm (insertByPriority f l) (f :: l) := by
  induction l with
  | nil => exact List.Perm.refl _
  | cons g l ih =>
    by_cases h : g.priority ≤ f.priority
    · rw [insertByPriority, if_pos h]
      exact (ih.cons g).trans (List.Perm.swap f g l)
    · rw [insertByPriority, if_neg h]

theorem foldl_insert_perm (l acc : List (Filter Tag El)) :
    List.Perm (l.foldl (fun acc g => insertByPriority g acc) acc)
      (acc ++ l) := by
  induction l generalizing acc with
  | nil => simp
  | cons g l ih =>
    refine List.Perm.trans (ih (insertByPriority g acc)) ?_
    refine List.Perm.trans
      (List.Perm.append_right l (insertByPriority_perm g acc))
      List.perm_middle.symm

theorem sortByPriority_perm (l : List (Filter Tag El)) :
    List.Perm (sortByPriority l) l := by
  simpa using foldl_insert_perm l []

/-- Appending a fresh filter whose id is the current counter value and
re-sorting keeps the mapped ids nodup and bounded by the new counter. -/
theorem nodup_bound_insert (f : Filter Tag El) (l : List (Filter Tag El))
    (b : Nat) (hnd : (l.map Filter.id).Nodup) (hb : ∀ g ∈ l, g.id < b)
    (hf : f.id = b) :
    ((sortByPriority (l ++ [f])).map Filter.id).Nodup ∧
      ∀ g ∈ sortByPriority (l ++ [f]), g.id < b + 1 := by
  have hperm : List.Perm (sortByPriority (l ++ [f])) (l ++ [f]) :=
    sortByPriority_perm _
  constructor
  · refine ((hperm.map Filter.id).nodup_iff).mpr ?_
    rw [List.map_append]
    rw [List.nodup_append]
    refine ⟨hnd, by simp, ?_⟩
    intro a ha ha2
    simp only [List.map_cons, List.map_nil, List.mem_singleton] at ha2
    rcases List.mem_map.mp ha with ⟨g, hg, rfl⟩
    have := hb g hg
    omega
  · intro g hg
    rcases List.mem_append.mp (hperm.subset hg) with hgl | hgf
    · exact lt_trans (hb g hgl) (Nat.lt_succ_self b)
    · rcases List.mem_singleton.mp hgf with rfl
      omega

end PermLemmas

section IdInvariant

variable {Tag : Type} [DecidableEq Tag] {El : Tag → Type}

/-- While fewer than `2^64` ids have been allocated, the counter has not
wrapped: it equals `1 + n`, and every hook's entries carry pairwise
distinct ids, all below the counter. This is the regime in which the
spec's "ids are unique, never reused, never zero" holds. -/
theorem reachable_ids_bound {n : Nat} {st : HookState Tag El}
    (hr : ReachableN n st) (hn : 1 + n < 2 ^ 64) :
    st.FILTER_ID_COUNTER = 1 + n ∧
      ∀ hook l, getHook st.FILTERS hook = some l →
        (l.map Filter.id).Nodup ∧ ∀ f ∈ l, f.id < 1 + n := by
  induction hr with
  | init =>
    refine ⟨by norm_num [initState], ?_⟩
    intro hook l h
    simp [initState, getHook] at h
  | @add m st hook₀ p t cb h ih =>
    have hm : 1 + m < 2 ^ 64 := by omega
    obtain ⟨hc, hinv⟩ := ih hm
    constructor
    · simp only [add_filter]
      rw [hc, Nat.mod_eq_of_lt (by omega)]
      omega
    · intro hook l hl
      simp only [add_filter] at hl
      by_cases he : hook = hook₀
      · subst he
        rw [getHook_updateHook_self] at hl
        rcases hg : getHook st.FILTERS hook with _ | l₀ <;> rw [hg] at hl
        · cases hl
          have := nodup_bound_insert
            (⟨st.FILTER_ID_COUNTER, p, t, cb⟩ : Filter Tag El) [] (1 + m)
            (by simp) (by simp) hc
          simpa using this
        · cases hl
          have hin := hinv hook l₀ hg
          have := nodup_bound_insert
            (⟨st.FILTER_ID_COUNTER, p, t, cb⟩ : Filter Tag El) l₀ (1 + m)
            hin.1 hin.2 hc
          simpa using this
      · rw [getHook_updateHook_ne _ _ _ _ he] at hl
        have hin := hinv hook l hl
        exact ⟨hin.1, fun f hf => lt_trans (hin.2 f hf) (by omega)⟩
  | @remove m st hook₀ id h ih =>
    obtain ⟨hc, hinv⟩ := ih hn
    refine ⟨by rw [remove_filter_counter]; exact hc, ?_⟩
    intro hook l hl
    rcases hg : getHook st.FILTERS hook₀ with _ | l₀
    · exact hinv hook l (by simpa [remove_filter, hg] using hl)
    · simp only [remove_filter, hg] at hl
      by_cases he : hook = hook₀
      · subst he
        rw [getHook_setHook_self _ _ _ l₀ hg] at hl
        cases hl
        have hin := hinv _ _ hg
        refine ⟨List.Nodup.sublist (List.Sublist.map Filter.id
          (List.filter_sublist l₀)) hin.1, ?_⟩
        intro f hf
        exact hin.2 f (List.mem_of_mem_filter hf)
      · rw [getHook_setHook_ne _ _ _ _ he] at hl
        exact hinv hook l hl
  | @removeAll m st hook₀ h ih =>
    obtain ⟨hc, hinv⟩ := ih hn
    refine ⟨hc, ?_⟩
    intro hook l hl
    simp only [remove_all_filters] at hl
    by_cases he : hook = hook₀
    · subst he
      rw [getHook_eraseHook_self] at hl
      cases hl
    · rw [getHook_eraseHook_ne _ _ _ he] at hl
      exact hinv hook l hl

end IdInvariant

theorem reachable_addIter (n : Nat) : ReachableN n (addIter n initState) := by
  induction n with
  | zero => exact ReachableN.init
  | succ n ih => exact ReachableN.add "h" 0 Ty.int (fun v => v) ih

/-- C1: on any reachable state, immediately after an `add_filter` call
every hook's filter sequence is sorted ascending by priority; since
`apply_filters` folds the sequence left to right, a filter whose priority
is strictly smaller than another's occupies a strictly smaller index and
is therefore invoked first, regardless of registration order. -/
theorem add_filter_sorted_priority_order {Tag : Type} [DecidableEq Tag]
    {El : Tag → Type} {n : Nat} {st : HookState Tag El}
    (hr : ReachableN n st) (hook₀ hook : String) (p : Int) (t : Tag)
    (cb : El t → El t) (l : List (Filter Tag El))
    (hl : getHook (add_filter st hook₀ p t cb).2.FILTERS hook = some l) :
    l.Pairwise PrioLE ∧
      ∀ i j : Fin l.length, (l.get i).priority < (l.get j).priority →
        (i : Nat) < (j : Nat) := by
  have hs : l.Pairwise PrioLE :=
    reachable_sorted (ReachableN.add hook₀ p t cb hr) hook l hl
  refine ⟨hs, ?_⟩
  intro i j hij
  by_contra hle
  push_neg at hle
  have hle2 : j ≤ i := hle
  rcases Fin.eq_or_lt_of_le hle2 with heq | hlt
  · rw [heq] at hij
    exact lt_irrefl _ hij
  · exact absurd hij (not_lt_of_le (List.Sorted.rel_get_of_lt hs hlt))

/-- C1 witness: after one registration on the empty registry the hook's
sequence is the singleton of the new filter, sorted, with the index-order
property. -/
theorem add_filter_sorted_priority_order_witness :
    ([(⟨1, 5, Ty.int, fun v => v⟩ : Filter Ty ElTy)].Pairwise PrioLE) ∧
      ∀ i j : Fin [(⟨1, 5, Ty.int, fun v => v⟩ : Filter Ty ElTy)].length,
        ([(⟨1, 5, Ty.int, fun v => v⟩ : Filter Ty ElTy)].get i).priority <
            ([(⟨1, 5, Ty.int, fun v => v⟩ : Filter Ty ElTy)].get j).priority →
          (i : Nat) < (j : Nat) :=
  add_filter_sorted_priority_order ReachableN.init "h" "h" 5 Ty.int
    (fun v => v) _ rfl

/-- C3: `apply_filters` returns the value unchanged when the hook is
absent from the registry or its sequence is empty — the identity no-op
path, not an error, for a value of any type, also when previously-removed
filters of the hook declared a different type. -/
theorem apply_filters_noop_spec {Tag : Type} [DecidableEq Tag]
    {El : Tag → Type} (st : HookState Tag El) (hook : String) (t : Tag)
    (v : El t)
    (h : getHook st.FILTERS hook = none ∨ getHook st.FILTERS hook = some []) :
    apply_filters st hook t v = .ok v :=
  apply_filters_identity st hook t v h

/-- C3 witness: a hook whose only (string-typed) filter was removed; an
integer dispatch still returns its input unchanged. -/
theorem apply_filters_noop_spec_witness :
    apply_filters (remove_filter (add_filter (initState : HookState Ty ElTy)
      "h" 10 Ty.str (fun s => s)).2 "h" 1).2 "h" Ty.int (4 : Int) = .ok 4 :=
  apply_filters_noop_spec _ "h" Ty.int 4 (Or.inr rfl)

/-- C4: `apply_filters` folds the value sequentially through the hook's
sequence — when every filter declares type `t`, the result is `.ok` of
`foldTyped t l v`, the left fold in which the output of filter `i` is the
input of filter `i+1`. -/
theorem apply_filters_sequential_fold {Tag : Type} [DecidableEq Tag]
    {El : Tag → Type} (st : HookState Tag El) (hook : String) (t : Tag)
    (v : El t) (l : List (Filter Tag El))
    (hl : getHook st.FILTERS hook = some l)
    (hall : ∀ f ∈ l, f.type_id = t) :
    apply_filters st hook t v = .ok (foldTyped t l v) :=
  apply_filters_eq_foldTyped st hook t v l hl hall

/-- C4 witness (Scenario A): a priority-10 add-one filter and a
priority-20 times-three filter on integers map 4 to (4+1)*3 = 15. -/
theorem apply_filters_sequential_fold_witness :
    apply_filters (add_filter (add_filter (initState : HookState Ty ElTy)
      "H1" 10 Ty.int (fun v => v + 1)).2 "H1" 20 Ty.int
        (fun v => v * 3)).2 "H1" Ty.int 4 = .ok 15 :=
  (apply_filters_sequential_fold
    (add_filter (add_filter (initState : HookState Ty ElTy) "H1" 10 Ty.int
      (fun v => v + 1)).2 "H1" 20 Ty.int (fun v => v * 3)).2 "H1" Ty.int 4
    [⟨1, 10, Ty.int, fun v => v + 1⟩, ⟨2, 20, Ty.int, fun v => v * 3⟩]
    rfl (by decide)).trans rfl

/-- C2: `add_filter` appends the new entry and re-sorts stably: when the
hook's current sequence `l` is sorted (as every reachable sequence is),
the new sequence is exactly `takeWhile (priority ≤ p) l`, then the new
entry, then the remainder — the just-inserted entry lands after every
pre-existing entry of priority ≤ p, in particular after every
pre-existing entry of equal priority, so among equal priorities the
first-registered filter sits earlier and executes first in dispatch. -/
theorem add_filter_stable_insert {Tag : Type} [DecidableEq Tag]
    {El : Tag → Type} (st : HookState Tag El) (hook : String) (p : Int)
    (t : Tag) (cb : El t → El t) (l : List (Filter Tag El))
    (hl : getHook st.FILTERS hook = some l) (hs : l.Pairwise PrioLE) :
    getHook (add_filter st hook p t cb).2.FILTERS hook =
        some (l.takeWhile (fun g => decide (g.priority ≤ p)) ++
          ⟨st.FILTER_ID_COUNTER, p, t, cb⟩ ::
            l.dropWhile (fun g => decide (g.priority ≤ p))) ∧
      ∀ g ∈ l, g.priority = p →
        g ∈ l.takeWhile (fun g => decide (g.priority ≤ p)) := by
  constructor
  · simp only [add_filter]
    rw [getHook_updateHook_self, hl]
    simp only [Option.getD_some]
    rw [sortByPriority_append_singleton, sortByPriority_of_sorted hs,
      insertByPriority_eq_takeWhile_dropWhile]
  · intro g hg hgp
    exact mem_takeWhile_of_sorted hs hg (le_of_eq hgp)

/-- C2 witness: a second registration at the same priority 10 lands after
the first-registered filter. -/
theorem add_filter_stable_insert_witness :
    getHook (add_filter (add_filter (initState : HookState Ty ElTy) "h" 10
        Ty.int (fun v => v)).2 "h" 10 Ty.int (fun v => v + 1)).2.FILTERS
        "h" =
      some [⟨1, 10, Ty.int, fun v => v⟩, ⟨2, 10, Ty.int, fun v => v + 1⟩] :=
  (add_filter_stable_insert
    (add_filter (initState : HookState Ty ElTy) "h" 10 Ty.int
      (fun v => v)).2 "h" 10 Ty.int (fun v => v + 1)
    [⟨1, 10, Ty.int, fun v => v⟩] rfl (by simp)).1.trans rfl

/-- C5: with the hook present and holding `l`, dispatch of a `t`-typed
value panics with the type-consistency fault iff some filter of `l`
declares a type other than `t`; moreover the fault fires at the first
mismatching filter, after the dispatch loop has folded the value through
all (matching) earlier filters. -/
theorem apply_filters_type_mismatch_iff {Tag : Type} [DecidableEq Tag]
    {El : Tag → Type} (st : HookState Tag El) (hook : String) (t : Tag)
    (v : El t) (l : List (Filter Tag El))
    (hl : getHook st.FILTERS hook = some l) :
    (apply_filters st hook t v = .error (.typeMismatch hook) ↔
        ∃ f ∈ l, f.type_id ≠ t) ∧
      ∀ l₁ f l₂, l = l₁ ++ f :: l₂ → (∀ g ∈ l₁, g.type_id = t) →
        f.type_id ≠ t →
        runFilters hook t l ⟨t, v⟩ =
            runFilters hook t (f :: l₂) ⟨t, foldTyped t l₁ v⟩ ∧
          runFilters hook t (f :: l₂) ⟨t, foldTyped t l₁ v⟩ =
            .error (.typeMismatch hook) := by
  constructor
  · constructor
    · intro he
      by_contra hno
      push_neg at hno
      rw [apply_filters_eq_foldTyped st hook t v l hl hno] at he
      exact Except.noConfusion he
    · intro hex
      simp only [apply_filters, hl,
        runFilters_error_of_mismatch hook t l hex v]
  · intro l₁ f l₂ hsplit hpre hf
    subst hsplit
    exact ⟨runFilters_append_of_all_match hook t l₁ (f :: l₂) hpre v,
      by simp only [runFilters, if_neg hf]⟩

/-- C5 witness (Scenario D): an integer dispatched on a hook holding a
string filter hits the type-consistency fault. -/
theorem apply_filters_type_mismatch_iff_witness :
    apply_filters (add_filter (initState : HookState Ty ElTy) "h" 10 Ty.str
      (fun s => s)).2 "h" Ty.int (4 : Int) = .error (.typeMismatch "h") :=
  (apply_filters_type_mismatch_iff
    (add_filter (initState : HookState Ty ElTy) "h" 10 Ty.str
      (fun s => s)).2 "h" Ty.int 4 [⟨1, 10, Ty.str, fun s => s⟩]
    rfl).1.mpr
    ⟨⟨1, 10, Ty.str, fun s => s⟩, List.mem_cons_self _ _, by decide⟩

/-- C10: when every filter in the hook's sequence declares type `t`, the
downcast inside each wrapped callback and the final downcast of the result
never fail: dispatch is total and returns `.ok` of a `t`-typed value. -/
theorem apply_filters_no_downcast_failure {Tag : Type} [DecidableEq Tag]
    {El : Tag → Type} (st : HookState Tag El) (hook : String) (t : Tag)
    (v : El t) (l : List (Filter Tag El))
    (hl : getHook st.FILTERS hook = some l)
    (hall : ∀ f ∈ l, f.type_id = t) :
    apply_filters st hook t v ≠ .error .filterDowncast ∧
      apply_filters st hook t v ≠ .error .finalDowncast ∧
      ∃ w : El t, apply_filters st hook t v = .ok w := by
  have h := apply_filters_eq_foldTyped st hook t v l hl hall
  rw [h]
  exact ⟨fun hc => Except.noConfusion hc, fun hc => Except.noConfusion hc,
    ⟨_, rfl⟩⟩

/-- C10 witness (Scenario B): two string filters dispatch a string with no
downcast failure. -/
theorem apply_filters_no_downcast_failure_witness :
    apply_filters (add_filter (add_filter (initState : HookState Ty ElTy)
        "H2" 10 Ty.str (fun s => "Hello, " ++ s)).2 "H2" 20 Ty.str
          (fun s => s.toUpper)).2 "H2" Ty.str "world" ≠
        .error .filterDowncast ∧
      apply_filters (add_filter (add_filter (initState : HookState Ty ElTy)
          "H2" 10 Ty.str (fun s => "Hello, " ++ s)).2 "H2" 20 Ty.str
            (fun s => s.toUpper)).2 "H2" Ty.str "world" ≠
        .error .finalDowncast ∧
      ∃ w : ElTy Ty.str,
        apply_filters (add_filter (add_filter (initState : HookState Ty ElTy)
            "H2" 10 Ty.str (fun s => "Hello, " ++ s)).2 "H2" 20 Ty.str
              (fun s => s.toUpper)).2 "H2" Ty.str "world" = .ok w :=
  apply_filters_no_downcast_failure
    (add_filter (add_filter (initState : HookState Ty ElTy) "H2" 10 Ty.str
      (fun s => "Hello, " ++ s)).2 "H2" 20 Ty.str (fun s => s.toUpper)).2
    "H2" Ty.str "world"
    [⟨1, 10, Ty.str, fun s => "Hello, " ++ s⟩,
      ⟨2, 20, Ty.str, fun s => s.toUpper⟩]
    rfl (by decide)

/-- C6: `remove_filter` retains exactly the entries whose id differs:
on an absent hook it returns false and leaves the state unchanged; on a
present hook it returns true iff an entry carries the id, keeps all other
entries in relative order (the retained list is a sublist), a second call
with the same id returns false, and — ids being unique — at most one
entry is removed. -/
theorem remove_filter_spec {Tag : Type} [DecidableEq Tag] {El : Tag → Type}
    (st : HookState Tag El) (hook : String) (id : Nat) :
    (getHook st.FILTERS hook = none → remove_filter st hook id = (false, st)) ∧
      ∀ l, getHook st.FILTERS hook = some l →
        getHook (remove_filter st hook id).2.FILTERS hook =
            some (l.filter (fun f => f.id ≠ id)) ∧
          ((remove_filter st hook id).1 = true ↔ ∃ f ∈ l, f.id = id) ∧
          (l.filter (fun f => f.id ≠ id)).Sublist l ∧
          (∀ g ∈ l, g.id ≠ id → g ∈ l.filter (fun f => f.id ≠ id)) ∧
          (remove_filter (remove_filter st hook id).2 hook id).1 = false ∧
          ((l.map Filter.id).Nodup →
            l.length ≤ (l.filter (fun f => f.id ≠ id)).length + 1) := by
  constructor
  · intro h
    simp [remove_filter, h]
  · intro l hl
    have hget : getHook (remove_filter st hook id).2.FILTERS hook =
        some (l.filter (fun f => f.id ≠ id)) := by
      simp only [remove_filter, hl]
      exact getHook_setHook_self st.FILTERS hook _ l hl
    have hsecond : ∀ st2 : HookState Tag El,
        getHook st2.FILTERS hook = some (l.filter (fun f => f.id ≠ id)) →
        (remove_filter st2 hook id).1 = false := by
      intro st2 h2
      simp only [remove_filter, h2]
      rw [List.filter_eq_self.mpr fun a ha => (List.mem_filter.mp ha).2]
      simp
    refine ⟨hget, ?_, List.filter_sublist l, ?_, hsecond _ hget,
      length_le_filter_ne_succ id l⟩
    · simp only [remove_filter, hl]
      rw [decide_eq_true_eq]
      exact filter_length_ne_iff_exists id l
    · intro g hg hgne
      exact List.mem_filter.mpr ⟨hg, by simpa using hgne⟩

/-- C6 witness: with entries of ids 1 and 2 present, removing id 1
returns true. -/
theorem remove_filter_spec_witness :
    (remove_filter (add_filter (add_filter (initState : HookState Ty ElTy)
      "h" 10 Ty.int (fun v => v)).2 "h" 20 Ty.int (fun v => v)).2
      "h" 1).1 = true :=
  ((remove_filter_spec (add_filter (add_filter (initState : HookState Ty
    ElTy) "h" 10 Ty.int (fun v => v)).2 "h" 20 Ty.int (fun v => v)).2
    "h" 1).2
    [⟨1, 10, Ty.int, fun v => v⟩, ⟨2, 20, Ty.int, fun v => v⟩] rfl).2.1.mpr
    ⟨⟨1, 10, Ty.int, fun v => v⟩, List.mem_cons_self _ _, rfl⟩

/-- C7: `remove_all_filters` deletes the hook's key from the registry
entirely, is idempotent, makes dispatch the identity for every value of
every type, and a subsequent `add_filter` recreates the hook fresh,
holding exactly the one new entry, as for a hook that never existed. -/
theorem remove_all_filters_spec {Tag : Type} [DecidableEq Tag]
    {El : Tag → Type} (st : HookState Tag El) (hook : String) :
    getHook (remove_all_filters st hook).FILTERS hook = none ∧
      remove_all_filters (remove_all_filters st hook) hook =
        remove_all_filters st hook ∧
      (∀ (t : Tag) (v : El t),
        apply_filters (remove_all_filters st hook) hook t v = .ok v) ∧
      ∀ (p : Int) (t : Tag) (cb : El t → El t),
        getHook (add_filter (remove_all_filters st hook) hook p t
            cb).2.FILTERS hook =
          some [⟨st.FILTER_ID_COUNTER, p, t, cb⟩] := by
  have hnone : getHook (remove_all_filters st hook).FILTERS hook = none := by
    simp only [remove_all_filters]
    exact getHook_eraseHook_self st.FILTERS hook
  refine ⟨hnone, ?_, ?_, ?_⟩
  · simp only [remove_all_filters]
    rw [eraseHook_idem]
  · intro t v
    exact apply_filters_identity _ hook t v (Or.inl hnone)
  · intro p t cb
    simp only [add_filter]
    rw [getHook_updateHook_self, hnone]
    rfl

/-- C7 witness: after clearing the hook, a string dispatch on it returns
its input unchanged. -/
theorem remove_all_filters_spec_witness :
    apply_filters (remove_all_filters (add_filter (initState : HookState Ty
      ElTy) "h" 10 Ty.int (fun v => v)).2 "h") "h" Ty.str "x" = .ok "x" :=
  (remove_all_filters_spec (add_filter (initState : HookState Ty ElTy) "h"
    10 Ty.int (fun v => v)).2 "h").2.2.1 Ty.str "x"

/-- C9: when `remove_filter` removes the hook's last remaining entries
(the retained list is empty), the key stays in the registry bound to the
empty sequence — unlike `remove_all_filters` — dispatch on the hook is
then the identity for a value of any type, and a subsequent `add_filter`
pushes into that existing empty sequence, yielding the singleton of the
new entry. -/
theorem remove_filter_last_keeps_key {Tag : Type} [DecidableEq Tag]
    {El : Tag → Type} (st : HookState Tag El) (hook : String) (id : Nat)
    (l : List (Filter Tag El)) (hl : getHook st.FILTERS hook = some l)
    (hempty : l.filter (fun f => f.id ≠ id) = []) :
    getHook (remove_filter st hook id).2.FILTERS hook = some [] ∧
      (∀ (t : Tag) (v : El t),
        apply_filters (remove_filter st hook id).2 hook t v = .ok v) ∧
      ∀ (p : Int) (t : Tag) (cb : El t → El t),
        getHook (add_filter (remove_filter st hook id).2 hook p t
            cb).2.FILTERS hook = some [⟨st.FILTER_ID_COUNTER, p, t, cb⟩] := by
  have hsome : getHook (remove_filter st hook id).2.FILTERS hook =
      some [] := by
    simp only [remove_filter, hl]
    rw [← hempty]
    exact getHook_setHook_self st.FILTERS hook _ l hl
  refine ⟨hsome, ?_, ?_⟩
  · intro t v
    exact apply_filters_identity _ hook t v (Or.inr hsome)
  · intro p t cb
    simp only [add_filter]
    rw [getHook_updateHook_self, hsome, remove_filter_counter]
    rfl

/-- C9 witness: removing the single entry of a hook leaves the key bound
to the empty sequence. -/
theorem remove_filter_last_keeps_key_witness :
    getHook (remove_filter (add_filter (initState : HookState Ty ElTy) "h"
      10 Ty.str (fun s => s)).2 "h" 1).2.FILTERS "h" = some [] :=
  (remove_filter_last_keeps_key (add_filter (initState : HookState Ty ElTy)
    "h" 10 Ty.str (fun s => s)).2 "h" 1 [⟨1, 10, Ty.str, fun s => s⟩]
    rfl rfl).1

/-- C8 as stated is false: the id counter is a `u64` updated by a
wrapping `fetch_add`. Starting from the initial state, after `2^64 - 1`
registrations (which returned ids `1 .. 2^64 - 1`) the counter has
wrapped to 0, and the next `add_filter` call — on the reachable state
below — returns id 0, contradicting "ids are never zero" (and, one call
later, "never reused", since id 1 is issued again). -/
theorem add_filter_id_wraps_counterexample :
    ReachableN (2 ^ 64 - 1) (addIter (2 ^ 64 - 1) initState) ∧
      (add_filter (addIter (2 ^ 64 - 1) initState) "h" 0 Ty.int
        (fun v => v)).1 = 0 := by
  have hre : ReachableN (2 ^ 64 - 1) (addIter (2 ^ 64 - 1) initState) :=
    reachable_addIter _
  refine ⟨hre, ?_⟩
  rw [add_filter_fst, reachable_counter hre]
  have h64 : 1 + (2 ^ 64 - 1) = 2 ^ 64 := by norm_num
  rw [h64, Nat.mod_self]

/-- C8 (amended): `add_filter` never fails and unconditionally returns
the counter value; on a reachable state with `n` prior registrations,
while fewer than `2^64` ids have been allocated (`n + 1 < 2^64`), the
returned id is `n + 1` — so ids start at 1, increase strictly with each
successive registration, are never zero and are never reused; beyond
that bound the 64-bit counter wraps. -/
theorem add_filter_id_monotone_amended {Tag : Type} [DecidableEq Tag]
    {El : Tag → Type} {n : Nat} {st : HookState Tag El}
    (hr : ReachableN n st) (hook : String) (p : Int) (t : Tag)
    (cb : El t → El t) (hn : n + 1 < 2 ^ 64) :
    (add_filter st hook p t cb).1 = n + 1 ∧ n + 1 ≠ 0 := by
  refine ⟨?_, Nat.succ_ne_zero n⟩
  simp only [add_filter]
  rw [reachable_counter hr, Nat.mod_eq_of_lt (by omega)]
  omega

/-- C8 witness: the very first registration returns id 1. -/
theorem add_filter_id_monotone_amended_witness :
    (add_filter (initState : HookState Ty ElTy) "h" 0 Ty.int
      (fun v => v)).1 = 0 + 1 ∧ 0 + 1 ≠ 0 :=
  add_filter_id_monotone_amended ReachableN.init "h" 0 Ty.int (fun v => v)
    (by norm_num)

end TheHook
